import Mathlib

/-!
Verification of the relational graph-rewriting combinators in
`symbolic_pymc/relations/graph.py` (`lapply_anyo`, `reduceo`, `graph_applyo`).

The combinators are miniKanren goal constructors.  We embed their success
semantics on ground (fully concrete) terms: a goal "succeeds" exactly when
some branch of its `condeseq` search tree is satisfiable, which for ground
arguments is an inductively defined predicate that mirrors the source's
clause structure one constructor per clause.  Solution *counts* and fuel
bounded exhaustive search are modelled separately by executable functions
over relations given as finite lists of ground pairs, mirroring the same
two-branch disjunctions.
-/

namespace SymbolicPymc

/-- Ground terms of the data model: an opaque atom, or a sequence compound
built from cons cells terminated by a type-tagged sentinel.  A Python list
or tuple `[t1, ..., tn]` with container (sentinel) kind `k` is `seq k
[t1, ..., tn]`; the empty sequence `seq k []` is the sentinel itself
(`type(l)()` in the source).  Sentinels of different kinds are distinct
terms even though both are "empty". -/
inductive Term where
  | atom : Nat → Term
  | seq  : Nat → List Term → Term
deriving Repr

mutual

/-- Decidable structural equality on ground terms. -/
def Term.decEq : (a b : Term) → Decidable (a = b)
  | .atom n, .atom m =>
      match Nat.decEq n m with
      | .isTrue h => .isTrue (by rw [h])
      | .isFalse h => .isFalse (by simp [h])
  | .atom _, .seq _ _ => .isFalse (by simp)
  | .seq _ _, .atom _ => .isFalse (by simp)
  | .seq k l, .seq k' l' =>
      match Nat.decEq k k', Term.decEqList l l' with
      | .isTrue h, .isTrue h' => .isTrue (by rw [h, h'])
      | .isFalse h, _ => .isFalse (by simp [h])
      | _, .isFalse h' => .isFalse (by simp [h'])

/-- Decidable structural equality on lists of ground terms. -/
def Term.decEqList : (l l' : List Term) → Decidable (l = l')
  | [], [] => .isTrue rfl
  | [], _ :: _ => .isFalse (by simp)
  | _ :: _, [] => .isFalse (by simp)
  | a :: as, b :: bs =>
      match Term.decEq a b, Term.decEqList as bs with
      | .isTrue h, .isTrue h' => .isTrue (by rw [h, h'])
      | .isFalse h, _ => .isFalse (by simp [h])
      | _, .isFalse h' => .isFalse (by simp [h'])

end

instance : DecidableEq Term := Term.decEq

/-- Sentinel (container) kind of a ground term, when it has one.  This
models `type(x)()` for the terms on which the source queries it: `is_cons x
or is_null x` holds exactly for sequence compounds and sentinels, i.e. for
`seq k l`, whose terminating sentinel is `seq k []`.  Atoms are neither
cons cells nor nulls, so they have no kind. -/
def kindOf : Term → Option Nat
  | .atom _ => none
  | .seq k _ => some k

/-- What the `lapply_anyo` function returns before any search is run: either
the distinguished always-failing goal `fail`, or the `condeseq` goal built
from its two clauses (source lines 19 to 54). -/
inductive GoalHead where
  | failGoal : GoalHead
  | condeseqGoal : GoalHead
deriving DecidableEq, Repr

/-- Goal construction prelude of `lapply_anyo` (source lines 19 to 27): the
null type is read off `l_out` if it is a cons or null, then off `l_in`; if
both are available and differ the function immediately returns `fail`,
otherwise it returns the `condeseq` goal. -/
def lapply_anyo_head (l_in l_out : Term) : GoalHead :=
  match kindOf l_out, kindOf l_in with
  | some k_out, some k_in => if k_out = k_in then .condeseqGoal else .failGoal
  | _, _ => .condeseqGoal

/-- Ground success semantics of `lapply_anyo relation l_in l_out i_any`
(source lines 10 to 54).  One constructor per satisfiable clause of the
`condeseq`:

* `base` is the terminating clause `[(eq, i_any, True), (eq, l_in,
  null_type), (eq, l_in, l_out)]`: it requires the carried flag to be
  `True` and both sequences to be the (matching) sentinel.
* `rewrite` is the inner clause `[(relation, l_car, o_car), (lapply_anyo,
  relation, l_cdr, o_cdr, True)]`: the relation holds between the two
  heads and the tails recurse with the flag set to `True`.
* `keep` is the inner clause `[(eq, l_car, o_car), (lapply_anyo, relation,
  l_cdr, o_cdr, i_any)]`: the heads are identical and the tails recurse
  with the flag unchanged.

The `conso` decompositions of the recursive clause preserve each side's
container kind, so the tails keep their sides' kinds.  The eager `fail`
short-circuit of lines 19 to 27 is modelled by `lapply_anyo_head`; it does
not change the satisfiable set, because a derivation forces the two kinds
to be equal at `base` (see `lapply_anyo_kinds_eq` below). -/
inductive lapply_anyo (R : Term → Term → Prop) : Term → Term → Bool → Prop where
  | base (k : Nat) : lapply_anyo R (.seq k []) (.seq k []) true
  | rewrite {k k' : Nat} {x y : Term} {xs ys : List Term} {f : Bool} :
      R x y → lapply_anyo R (.seq k xs) (.seq k' ys) true →
      lapply_anyo R (.seq k (x :: xs)) (.seq k' (y :: ys)) f
  | keep {k k' : Nat} {x : Term} {xs ys : List Term} {f : Bool} :
      lapply_anyo R (.seq k xs) (.seq k' ys) f →
      lapply_anyo R (.seq k (x :: xs)) (.seq k' (x :: ys)) f

/-- Ground success semantics of `reduceo relation in_expr out_expr` (source
lines 57 to 71), one constructor per clause of its `condeseq`:

* `more`: "the fixed-point is another reduction step out": the relation
  takes `in_expr` to some intermediate `m` and `reduceo` recurses from `m`.
* `single`: "the fixed-point is a single-step reduction": the relation
  relates `in_expr` directly to `out_expr`. -/
inductive reduceo (R : Term → Term → Prop) : Term → Term → Prop where
  | more {x m y : Term} : R x m → reduceo R m y → reduceo R x y
  | single {x y : Term} : R x y → reduceo R x y

/-- Ground success semantics of `graph_applyo relation in_graph out_graph`
(source lines 74 to 97).  Each of the two outer clauses is followed by the
same continue-or-stop `condeseq`, giving four satisfiable shapes:

* `here_more` / `here_done`: the relation applies at the root, taking
  `in_graph` to `in_rdc`, and then either `graph_applyo` recurses from
  `in_rdc` or `in_rdc` is accepted as `out_graph`.
* `sub_more` / `sub_done`: `lapply_anyo` applies `graph_applyo relation`
  itself (the source's `partial(graph_applyo, relation)`) to at least one
  element of `in_graph`, giving `in_rdc`, and then the same
  continue-or-stop choice. -/
inductive graph_applyo (R : Term → Term → Prop) : Term → Term → Prop where
  | here_more {x m y : Term} : R x m → graph_applyo R m y → graph_applyo R x y
  | here_done {x y : Term} : R x y → graph_applyo R x y
  | sub_more {x m y : Term} :
      lapply_anyo (graph_applyo R) x m false → graph_applyo R m y → graph_applyo R x y
  | sub_done {x y : Term} :
      lapply_anyo (graph_applyo R) x y false → graph_applyo R x y

/-! ### Executable model of the `reduceo` search for finite ground relations

When the caller's elementary relation is a finite set of ground pairs (as in
the spec's concrete scenarios), the stream of solutions produced by the
`reduceo` goal can be modelled executably.  Fuel bounds the depth of the
lazily explored search tree; on search trees of bounded depth the counts
below stabilise once the fuel exceeds that depth, and a solution reachable
within the fuel is found. -/

/-- A finite ground elementary relation, as the set of its pairs. -/
def pairRel (R : List (Term × Term)) (x y : Term) : Prop := (x, y) ∈ R

instance (R : List (Term × Term)) (x y : Term) : Decidable (pairRel R x y) := by
  unfold pairRel; infer_instance

instance (R : List (Term × Term)) : DecidableRel (pairRel R) :=
  fun _ _ => inferInstance

/-- The spec's concrete elementary relation: it relates exactly the atom
`2` to the atom `3`. -/
def r23 : List (Term × Term) := [(Term.atom 2, Term.atom 3)]

/-- A two-step cycle: `2` rewrites to `3` and `3` back to `2`; it contains
no reflexive pair. -/
def rcyc : List (Term × Term) := [(Term.atom 2, Term.atom 3), (Term.atom 3, Term.atom 2)]

/-- The relation `r23` extended with the reflexive pair `(2, 2)`. -/
def r23refl : List (Term × Term) := [(Term.atom 2, Term.atom 3), (Term.atom 2, Term.atom 2)]

/-- Successors of `x`: the substitution stream of the goal `(relation,
in_expr, expr_rdcd)` with `expr_rdcd` a fresh variable binds `expr_rdcd` to
each `p.2` with `(x, p.2)` a pair of the relation. -/
def stepList (R : List (Term × Term)) (x : Term) : List Term :=
  (R.filter (fun p => decide (p.1 = x))).map Prod.snd

/-- Number of solutions of the direct goal `(relation, in_expr, out_expr)`
on ground terms: one per matching pair of the relation. -/
def matchCount (R : List (Term × Term)) (x y : Term) : Nat :=
  (R.filter (fun p => decide (p.1 = x) && decide (p.2 = y))).length

/-- Number of solutions of `reduceo R x y` whose search tree has depth at
most the given fuel: clause 1 contributes the solutions of the recursive
call at each successor, clause 2 the direct matches. -/
def reduceoCount (R : List (Term × Term)) : Nat → Term → Term → Nat
  | 0, _, _ => 0
  | n + 1, x, y =>
      ((stepList R x).map (fun m => reduceoCount R n m y)).sum + matchCount R x y

/-- Whether the `reduceo` search finds at least one solution within the
given depth fuel. -/
def reduceoSolvable (R : List (Term × Term)) : Nat → Term → Term → Bool
  | 0, _, _ => false
  | n + 1, x, y =>
      (stepList R x).any (fun m => reduceoSolvable R n m y) || decide ((x, y) ∈ R)

/-- Every chain of relation steps out of `x` has length at most `n`; i.e.
the relation has no infinite (and no overlong) outgoing chain from `x`.
This is the regime in which full exhaustion of the `reduceo` stream
terminates. -/
def depthBounded (R : List (Term × Term)) : Nat → Term → Prop
  | 0, x => stepList R x = []
  | n + 1, x => ∀ m ∈ stepList R x, depthBounded R n m

/-! ### Specification-side definitions

These are written from the spec's words, to be compared with the
definitions above; claims are equivalences between the two sides. -/

/-- Spec-side: `ms` witnesses a finite non-empty chain `x = t0, t1, ...,
tk = y` with `k = ms.length + 1 ≥ 1` and the relation holding at every
step (`ms` lists the intermediate terms `t1, ..., t_{k-1}`). -/
def isChain (R : Term → Term → Prop) : Term → List Term → Term → Prop
  | x, [], y => R x y
  | x, m :: ms, y => R x m ∧ isChain R m ms y

/-- Spec-side: a single application of the elementary relation at one
admissible site of a term.  `AppAt R false x y` applies the relation at the
root of `x` or, recursively, anywhere inside one of its sequence elements;
`AppAt R true` is the strictly-inside restriction: it rewrites exactly one
element of a sequence (at any admissible site of that element), keeping
every other element, the sequence kind and the length unchanged.  Sites
are the root and, recursively, the sites of the elements: the tail of a
sequence is not itself a site. -/
inductive AppAt (R : Term → Term → Prop) : Bool → Term → Term → Prop where
  | root {x y : Term} : R x y → AppAt R false x y
  | head {m : Bool} {k : Nat} {x y : Term} {s : List Term} :
      AppAt R false x y → AppAt R m (.seq k (x :: s)) (.seq k (y :: s))
  | tail {m : Bool} {k : Nat} {x : Term} {s t : List Term} :
      AppAt R true (.seq k s) (.seq k t) → AppAt R m (.seq k (x :: s)) (.seq k (x :: t))

/-- Spec-side, claim C3 verbatim: the two element lists have equal length
and there is a single index `i` with the relation holding between the
elements at `i` and the elements at every other index identical. -/
def singleApplySpec (R : Term → Term → Prop) (as bs : List Term) : Prop :=
  as.length = bs.length ∧
    ∃ i : Fin (as.zip bs).length,
      R ((as.zip bs).get i).1 ((as.zip bs).get i).2 ∧
        ∀ j : Fin (as.zip bs).length, j ≠ i →
          ((as.zip bs).get j).1 = ((as.zip bs).get j).2

instance (R : Term → Term → Prop) [DecidableRel R] (as bs : List Term) :
    Decidable (singleApplySpec R as bs) := by
  unfold singleApplySpec; infer_instance

/-- Spec-side, amended claim C3: equal length, every index pair is either
relation-covered or identical, and at least one index pair is
relation-covered.  Equivalently: some non-empty set of indices is
rewritten by the relation while all remaining indices are identical. -/
def multiApplySpec (R : Term → Term → Prop) (as bs : List Term) : Prop :=
  as.length = bs.length ∧
    (∀ p ∈ as.zip bs, R p.1 p.2 ∨ p.1 = p.2) ∧ ∃ p ∈ as.zip bs, R p.1 p.2

mutual

/-- Number of occurrences of the atom `2` at admissible application sites
of a term (the term itself and, recursively, its sequence elements). -/
def count2 : Term → Nat
  | .atom n => if n = 2 then 1 else 0
  | .seq _ l => count2List l

/-- Sum of `count2` over a list of terms. -/
def count2List : List Term → Nat
  | [] => 0
  | t :: ts => count2 t + count2List ts

end

/-- Prepend a term to a sequence; identity on non-sequences.  Used to lift
rewrite chains on a sequence of elements to a longer sequence. -/
def seqCons (x : Term) : Term → Term
  | .seq k s => .seq k (x :: s)
  | t => t

/-! ### Lemmas about `lapply_anyo` -/

/-- Characterisation predicate for `lapply_anyo` on ground terms: both
arguments are sequences of one common kind and equal length, every
corresponding element pair is relation-covered or identical, and when the
incoming flag is the default `false` at least one pair is
relation-covered. -/
def lapplyChar (R : Term → Term → Prop) : Term → Term → Bool → Prop
  | .seq k as, .seq k' bs, f =>
      k = k' ∧ as.length = bs.length ∧
        (∀ p ∈ as.zip bs, R p.1 p.2 ∨ p.1 = p.2) ∧
        (f = false → ∃ p ∈ as.zip bs, R p.1 p.2)
  | _, _, _ => False

/-- Every derivation satisfies the characterisation predicate. -/
theorem lapply_anyo_forward {R : Term → Term → Prop} {a b : Term} {f : Bool}
    (h : lapply_anyo R a b f) : lapplyChar R a b f := by
  induction h with
  | base k => exact ⟨rfl, rfl, by simp, by simp⟩
  | @rewrite k k' x y xs ys f hR _ ih =>
      obtain ⟨hk, hlen, hall, _⟩ := ih
      refine ⟨hk, by simp [hlen], ?_, ?_⟩
      · intro p hp
        rcases List.mem_cons.mp hp with h | h
        · subst h; exact Or.inl hR
        · exact hall p h
      · intro _
        exact ⟨_, List.mem_cons_self _ _, hR⟩
  | @keep k k' x xs ys f _ ih =>
      obtain ⟨hk, hlen, hall, hex⟩ := ih
      refine ⟨hk, by simp [hlen], ?_, ?_⟩
      · intro p hp
        rcases List.mem_cons.mp hp with h | h
        · subst h; exact Or.inr rfl
        · exact hall p h
      · intro hf
        obtain ⟨p, hp, hRp⟩ := hex hf
        exact ⟨p, List.mem_cons_of_mem _ hp, hRp⟩

/-- Converse construction: lists of equal length whose pairs are each
relation-covered or identical admit a derivation, at flag `true`
unconditionally and at flag `false` as soon as one pair is
relation-covered. -/
theorem lapply_anyo_backward {R : Term → Term → Prop} {k : Nat} :
    ∀ {as bs : List Term} {f : Bool}, as.length = bs.length →
      (∀ p ∈ as.zip bs, R p.1 p.2 ∨ p.1 = p.2) →
      (f = true ∨ ∃ p ∈ as.zip bs, R p.1 p.2) →
      lapply_anyo R (.seq k as) (.seq k bs) f := by
  intro as
  induction as with
  | nil =>
      intro bs f hlen _ hne
      obtain rfl : bs = [] := List.eq_nil_of_length_eq_zero hlen.symm
      rcases hne with rfl | ⟨p, hp, _⟩
      · exact .base k
      · simp at hp
  | cons a as ih =>
      intro bs f hlen hall hne
      match bs with
      | [] => simp at hlen
      | b :: bs =>
          by_cases hR : R a b
          · exact .rewrite hR (ih (by simpa using hlen)
              (fun p hp => hall p (List.mem_cons_of_mem _ hp)) (Or.inl rfl))
          · have hab : a = b := by
              rcases hall (a, b) (List.mem_cons_self _ _) with h | h
              · exact absurd h hR
              · exact h
            subst hab
            refine .keep (ih (by simpa using hlen)
              (fun p hp => hall p (List.mem_cons_of_mem _ hp)) ?_)
            rcases hne with rfl | ⟨p, hp, hRp⟩
            · exact Or.inl rfl
            · rcases List.mem_cons.mp hp with h | h
              · rw [h] at hRp; exact absurd hRp hR
              · exact Or.inr ⟨p, h, hRp⟩

/-- Full characterisation of `lapply_anyo` on ground sequences. -/
theorem lapply_anyo_iff {R : Term → Term → Prop} {k k' : Nat}
    {as bs : List Term} {f : Bool} :
    lapply_anyo R (.seq k as) (.seq k' bs) f ↔
      k = k' ∧ as.length = bs.length ∧
        (∀ p ∈ as.zip bs, R p.1 p.2 ∨ p.1 = p.2) ∧
        (f = false → ∃ p ∈ as.zip bs, R p.1 p.2) := by
  constructor
  · intro h
    exact lapply_anyo_forward h
  · rintro ⟨rfl, hlen, hall, hex⟩
    cases f with
    | true => exact lapply_anyo_backward hlen hall (Or.inl rfl)
    | false => exact lapply_anyo_backward hlen hall (Or.inr (hex rfl))

/-- A derivation forces the two sequences to share one sentinel kind, which
is why the eager `fail` short-circuit of source lines 19 to 27 never
removes a satisfiable branch. -/
theorem lapply_anyo_kinds_eq {R : Term → Term → Prop} {a b : Term} {f : Bool}
    (h : lapply_anyo R a b f) :
    ∃ k as bs, a = Term.seq k as ∧ b = Term.seq k bs := by
  have hc := lapply_anyo_forward h
  cases a with
  | atom n => cases b <;> exact absurd hc (by simp [lapplyChar])
  | seq k as =>
      cases b with
      | atom m => exact absurd hc (by simp [lapplyChar])
      | seq k' bs =>
          obtain ⟨rfl, -⟩ := hc
          exact ⟨k, as, bs, rfl, rfl⟩

/-- With the flag already satisfied, the identity pairing of any ground
sequence with itself is accepted: choose the `keep` clause at every
position and finish at `base`. -/
theorem lapply_anyo_refl_true (R : Term → Term → Prop) (k : Nat) :
    ∀ xs : List Term, lapply_anyo R (.seq k xs) (.seq k xs) true
  | [] => .base k
  | _ :: xs => .keep (lapply_anyo_refl_true R k xs)

/-! ### Lemmas about `reduceo` -/

/-- The `reduceo` goal succeeds exactly on the witnesses of a finite
non-empty chain of elementary steps. -/
theorem reduceo_iff_chain {R : Term → Term → Prop} {x y : Term} :
    reduceo R x y ↔ ∃ ms, isChain R x ms y := by
  constructor
  · intro h
    induction h with
    | more hR _ ih =>
        obtain ⟨ms, hc⟩ := ih
        exact ⟨_ :: ms, hR, hc⟩
    | single hR => exact ⟨[], hR⟩
  · rintro ⟨ms, hc⟩
    induction ms generalizing x with
    | nil => exact .single hc
    | cons m ms ih => exact .more hc.1 (ih hc.2)

/-- Success of `reduceo` is monotone in the supplied elementary relation. -/
theorem reduceo_mono {R R' : Term → Term → Prop}
    (hRR : ∀ a b, R a b → R' a b) {x y : Term}
    (h : reduceo R x y) : reduceo R' x y := by
  induction h with
  | more hR _ ih => exact .more (hRR _ _ hR) ih
  | single hR => exact .single (hRR _ _ hR)

/-- The relation computed by `reduceo` is transitive. -/
theorem reduceo_trans {R : Term → Term → Prop} {x y z : Term}
    (h1 : reduceo R x y) (h2 : reduceo R y z) : reduceo R x z := by
  induction h1 with
  | more hR _ ih => exact .more hR (ih h2)
  | single hR => exact .more hR h2

/-! ### Lemmas about `graph_applyo` -/

/-- Mutual induction principle for `graph_applyo` and the copy of
`lapply_anyo` that it instantiates with itself, specialised to motives
that do not depend on the derivation.  Derived from the recursor of the
nested inductive. -/
theorem graph_applyo_ind {R : Term → Term → Prop}
    (P : Term → Term → Prop) (Q : Term → Term → Bool → Prop)
    (hm : ∀ x m y, R x m → graph_applyo R m y → P m y → P x y)
    (hd : ∀ x y, R x y → P x y)
    (sm : ∀ x m y, lapply_anyo (graph_applyo R) x m false → graph_applyo R m y →
      Q x m false → P m y → P x y)
    (sd : ∀ x y, lapply_anyo (graph_applyo R) x y false → Q x y false → P x y)
    (qb : ∀ k, Q (.seq k []) (.seq k []) true)
    (qr : ∀ k k' x y xs ys f, graph_applyo R x y →
      lapply_anyo (graph_applyo R) (.seq k xs) (.seq k' ys) true →
      P x y → Q (.seq k xs) (.seq k' ys) true →
      Q (.seq k (x :: xs)) (.seq k' (y :: ys)) f)
    (qk : ∀ k k' x xs ys f, lapply_anyo (graph_applyo R) (.seq k xs) (.seq k' ys) f →
      Q (.seq k xs) (.seq k' ys) f → Q (.seq k (x :: xs)) (.seq k' (x :: ys)) f)
    {x y : Term} (h : graph_applyo R x y) : P x y := by
  refine @graph_applyo.rec R (fun a b _ => P a b) (fun a b f _ => Q a b f)
    ?_ ?_ ?_ ?_ ?_ ?_ ?_ x y h
  · intro x m y hR hmy ih
    exact hm x m y hR hmy ih
  · intro x y hR
    exact hd x y hR
  · intro x m y hl hmy ihq ihp
    exact sm x m y hl hmy ihq ihp
  · intro x y hl ihq
    exact sd x y hl ihq
  · intro k
    exact qb k
  · intro k k' x y xs ys f hg hl ihp ihq
    exact qr k k' x y xs ys f hg hl ihp ihq
  · intro k k' x xs ys f hl ihq
    exact qk k k' x xs ys f hl ihq

/-- The relation computed by `graph_applyo` is transitive. -/
theorem graph_applyo_trans {R : Term → Term → Prop} {x y z : Term}
    (h1 : graph_applyo R x y) (h2 : graph_applyo R y z) : graph_applyo R x z := by
  refine graph_applyo_ind
    (fun a b => ∀ c, graph_applyo R b c → graph_applyo R a c) (fun _ _ _ => True)
    ?_ ?_ ?_ ?_ ?_ ?_ ?_ h1 z h2
  · intro x m y hR _ ih c hc
    exact .here_more hR (ih c hc)
  · intro x y hR c hc
    exact .here_more hR hc
  · intro x m y hl _ _ ih c hc
    exact .sub_more hl (ih c hc)
  · intro x y hl _ c hc
    exact .sub_more hl hc
  · intro _
    trivial
  · intro _ _ _ _ _ _ _ _ _ _ _
    trivial
  · intro _ _ _ _ _ _ _ _
    trivial

/-- A strictly-inside application is in particular an application at some
admissible site, whatever the requested mode. -/
theorem appAt_of_inside {R : Term → Term → Prop} {a b : Term} (m : Bool)
    (h : AppAt R true a b) : AppAt R m a b := by
  cases h with
  | head h => exact .head h
  | tail h => exact .tail h

/-- Lift a chain of applications inside the head element to a chain of
strictly-inside applications on the whole sequence. -/
theorem transGen_appAt_head {R : Term → Term → Prop} {x y : Term} (k : Nat) (s : List Term)
    (h : Relation.TransGen (AppAt R false) x y) :
    Relation.TransGen (AppAt R true) (.seq k (x :: s)) (.seq k (y :: s)) :=
  Relation.TransGen.lift (fun t => Term.seq k (t :: s)) (fun _ _ hs => AppAt.head hs) h

/-- A strictly-inside application survives prepending an element. -/
theorem appAt_inside_seqCons {R : Term → Term → Prop} (x : Term) {a b : Term}
    (h : AppAt R true a b) : AppAt R true (seqCons x a) (seqCons x b) := by
  cases h with
  | head h => exact .tail (.head h)
  | tail h => exact .tail (.tail h)

/-- Lift a reflexive-transitive chain of strictly-inside applications
through prepending an element. -/
theorem rtg_appAt_seqCons {R : Term → Term → Prop} (x : Term) {a b : Term}
    (h : Relation.ReflTransGen (AppAt R true) a b) :
    Relation.ReflTransGen (AppAt R true) (seqCons x a) (seqCons x b) :=
  Relation.ReflTransGen.lift (seqCons x) (fun _ _ hs => appAt_inside_seqCons x hs) h

/-- Lift a transitive chain of strictly-inside applications through
prepending an element. -/
theorem tg_appAt_seqCons {R : Term → Term → Prop} (x : Term) {a b : Term}
    (h : Relation.TransGen (AppAt R true) a b) :
    Relation.TransGen (AppAt R true) (seqCons x a) (seqCons x b) :=
  Relation.TransGen.lift (seqCons x) (fun _ _ hs => appAt_inside_seqCons x hs) h

/-- Soundness half of claim C1: every `graph_applyo` success is a
non-empty chain of single applications of the elementary relation at
admissible sites. -/
theorem graph_applyo_to_transGen {R : Term → Term → Prop} {x y : Term}
    (h : graph_applyo R x y) : Relation.TransGen (AppAt R false) x y := by
  refine graph_applyo_ind (fun a b => Relation.TransGen (AppAt R false) a b)
    (fun a b f => cond f (Relation.ReflTransGen (AppAt R true) a b)
      (Relation.TransGen (AppAt R true) a b))
    ?_ ?_ ?_ ?_ ?_ ?_ ?_ h
  · intro x m y hR _ ih
    exact Relation.TransGen.head (.root hR) ih
  · intro x y hR
    exact Relation.TransGen.single (.root hR)
  · intro x m y _ _ ihq ihp
    exact Relation.TransGen.trans
      (Relation.TransGen.mono (fun a b hs => appAt_of_inside false hs) ihq) ihp
  · intro x y _ ihq
    exact Relation.TransGen.mono (fun a b hs => appAt_of_inside false hs) ihq
  · intro k
    exact Relation.ReflTransGen.refl
  · intro k k' x y xs ys f _ _ ihp ihq
    have hchain : Relation.TransGen (AppAt R true) (.seq k (x :: xs)) (.seq k' (y :: ys)) := by
      have h1 := transGen_appAt_head k xs ihp
      have h2 : Relation.ReflTransGen (AppAt R true) (.seq k (y :: xs)) (.seq k' (y :: ys)) :=
        rtg_appAt_seqCons y ihq
      exact Relation.TransGen.trans_left h1 h2
    cases f with
    | false => exact hchain
    | true => exact hchain.to_reflTransGen
  · intro k k' x xs ys f _ ihq
    cases f with
    | false => exact tg_appAt_seqCons x ihq
    | true =>
        have := rtg_appAt_seqCons x ihq
        exact this

/-- Completeness half of claim C1, one step: a single application at an
admissible site is accepted by the combinator; a strictly-inside one is in
particular accepted by its sequence clause with flag still to satisfy. -/
theorem appAt_to_graph_applyo {R : Term → Term → Prop} {m : Bool} {a b : Term}
    (h : AppAt R m a b) :
    cond m (lapply_anyo (graph_applyo R) a b false) (graph_applyo R a b) := by
  induction h with
  | root hR => exact .here_done hR
  | @head m k x y s _ ih =>
      have hl : lapply_anyo (graph_applyo R) (.seq k (x :: s)) (.seq k (y :: s)) false :=
        .rewrite ih (lapply_anyo_refl_true _ k s)
      cases m with
      | true => exact hl
      | false => exact .sub_done hl
  | @tail m k x s t _ ih =>
      have hl : lapply_anyo (graph_applyo R) (.seq k (x :: s)) (.seq k (x :: t)) false :=
        .keep ih
      cases m with
      | true => exact hl
      | false => exact .sub_done hl

/-- Completeness half of claim C1: a non-empty chain of single
applications at admissible sites is accepted by `graph_applyo`. -/
theorem transGen_to_graph_applyo {R : Term → Term → Prop} {x y : Term}
    (h : Relation.TransGen (AppAt R false) x y) : graph_applyo R x y := by
  induction h with
  | single hs => exact appAt_to_graph_applyo hs
  | tail _ hs ih => exact graph_applyo_trans ih (appAt_to_graph_applyo hs)

/-- Ground characterisation of `graph_applyo`: success exactly on pairs
related by one or more applications of the elementary relation at
admissible sites, in any interleaving. -/
theorem graph_applyo_iff_transGen {R : Term → Term → Prop} {x y : Term} :
    graph_applyo R x y ↔ Relation.TransGen (AppAt R false) x y :=
  ⟨graph_applyo_to_transGen, transGen_to_graph_applyo⟩

/-! ### Lemmas about the executable `reduceo` search model -/

/-- Membership in the successor list is membership of the pair in the
relation. -/
theorem mem_stepList {R : List (Term × Term)} {x m : Term} :
    m ∈ stepList R x ↔ (x, m) ∈ R := by
  simp only [stepList, List.mem_map, List.mem_filter, decide_eq_true_eq]
  constructor
  · rintro ⟨⟨p1, p2⟩, ⟨hp, rfl⟩, rfl⟩
    exact hp
  · intro h
    exact ⟨(x, m), ⟨h, rfl⟩, rfl⟩

/-- A target reachable by a concrete chain is found by the bounded search
with fuel the length of that chain. -/
theorem reduceoSolvable_of_chain {R : List (Term × Term)} {ms : List Term} {x y : Term}
    (h : isChain (pairRel R) x ms y) :
    reduceoSolvable R (ms.length + 1) x y = true := by
  induction ms generalizing x with
  | nil =>
      simp only [List.length_nil, reduceoSolvable, Bool.or_eq_true, decide_eq_true_eq]
      exact Or.inr h
  | cons m ms ih =>
      have hunf : reduceoSolvable R (ms.length + 1 + 1) x y
          = (((stepList R x).any fun z => reduceoSolvable R (ms.length + 1) z y)
            || decide ((x, y) ∈ R)) := rfl
      rw [List.length_cons, hunf, Bool.or_eq_true, List.any_eq_true]
      exact Or.inl ⟨m, mem_stepList.mpr h.1, ih h.2⟩

/-- Every solution found by the bounded search is a genuine `reduceo`
solution. -/
theorem reduceoSolvable_sound {R : List (Term × Term)} :
    ∀ {n : Nat} {x y : Term}, reduceoSolvable R n x y = true → reduceo (pairRel R) x y := by
  intro n
  induction n with
  | zero =>
      intro x y h
      simp [reduceoSolvable] at h
  | succ n ih =>
      intro x y h
      simp only [reduceoSolvable, Bool.or_eq_true, List.any_eq_true,
        decide_eq_true_eq] at h
      rcases h with ⟨m, hm, hsol⟩ | hxy
      · exact .more (mem_stepList.mp hm) (ih hsol)
      · exact .single hxy

/-- When every chain out of `x` has length at most `N`, the exhaustive
solution count stabilises at fuel `N + 1`: the whole lazily produced
stream is explored in finite depth. -/
theorem reduceoCount_stab {R : List (Term × Term)} :
    ∀ {N : Nat} {x : Term}, depthBounded R N x → ∀ y n, N + 1 ≤ n →
      reduceoCount R n x y = reduceoCount R (N + 1) x y := by
  intro N
  induction N with
  | zero =>
      intro x hdb y n hn
      obtain ⟨n, rfl⟩ : ∃ m, n = m + 1 := ⟨n - 1, by omega⟩
      have hdb' : stepList R x = [] := hdb
      simp [reduceoCount, hdb']
  | succ N ih =>
      intro x hdb y n hn
      obtain ⟨n, rfl⟩ : ∃ m, n = m + 1 := ⟨n - 1, by omega⟩
      have hn' : N + 1 ≤ n := by omega
      have hmap : (stepList R x).map (fun m => reduceoCount R n m y)
          = (stepList R x).map (fun m => reduceoCount R (N + 1) m y) := by
        apply List.map_congr_left
        intro m hm
        exact ih (hdb m hm) y n hn'
      have hunf : ∀ M : Nat, reduceoCount R (M + 1) x y
          = ((stepList R x).map fun m => reduceoCount R M m y).sum + matchCount R x y :=
        fun _ => rfl
      rw [hunf n, hunf (N + 1), hmap]

/-! ### The concrete relation of the spec's scenarios -/

/-- Applying the pair `(2, 3)` at any admissible site strictly decreases
the number of atom-`2` sites, so no application chain for that relation
can return to its starting term. -/
theorem appAt_count2_decr {m : Bool} {a b : Term}
    (h : AppAt (pairRel r23) m a b) :
    count2 b < count2 a := by
  induction h with
  | root hR =>
      simp only [pairRel, r23, List.mem_singleton, Prod.mk.injEq] at hR
      obtain ⟨rfl, rfl⟩ := hR
      decide
  | @head m k x y s _ ih =>
      simp only [count2, count2List]
      exact Nat.add_lt_add_right ih _
  | @tail m k x s t _ ih =>
      simp only [count2] at ih
      simp only [count2, count2List]
      exact Nat.add_lt_add_left ih _

/-- Along any non-empty chain of `(2, 3)` applications the atom-`2` count
strictly decreases. -/
theorem transGen_count2_decr {x y : Term}
    (h : Relation.TransGen (AppAt (pairRel r23) false) x y) :
    count2 y < count2 x := by
  induction h with
  | single hs => exact appAt_count2_decr hs
  | tail _ hs ih => exact Nat.lt_trans (appAt_count2_decr hs) ih

/-- With the elementary relation `{(2, 3)}` the graph combinator never
relates a term to itself. -/
theorem graph_applyo_r23_irrefl (t : Term) :
    ¬ graph_applyo (pairRel r23) t t := fun h =>
  absurd (transGen_count2_decr (graph_applyo_to_transGen h)) (Nat.lt_irrefl _)

/-- The atom `3` has no outgoing `{(2, 3)}` step, so no `reduceo` solution
starts there. -/
theorem reduceo_r23_from3 (y : Term) :
    ¬ reduceo (pairRel r23) (Term.atom 3) y := by
  intro h
  cases h with
  | more hR _ => simp [pairRel, r23] at hR
  | single hR => simp [pairRel, r23] at hR

/-- With the relation `{(2, 3)}` there is no chain from the atom `2` back
to itself. -/
theorem reduceo_r23_not_2_2 :
    ¬ reduceo (pairRel r23) (Term.atom 2) (Term.atom 2) := by
  intro h
  cases h with
  | more hR hrest =>
      simp only [pairRel, r23, List.mem_singleton, Prod.mk.injEq, true_and] at hR
      subst hR
      exact reduceo_r23_from3 _ hrest
  | single hR => simp [pairRel, r23] at hR

/-- The bounded search from the atom `3` finds nothing at any fuel. -/
theorem reduceoCount_r23_from3 : ∀ (n : Nat) (y : Term),
    reduceoCount r23 n (Term.atom 3) y = 0 := by
  intro n y
  cases n with
  | zero => rfl
  | succ n =>
      have hstep : stepList r23 (Term.atom 3) = [] := rfl
      have hdec : decide (Term.atom 2 = Term.atom 3) = false := rfl
      simp [reduceoCount, hstep, matchCount, List.filter, hdec]

/-- At every positive fuel, the search for `reduceo({(2,3)}, 2, 3)` finds
exactly one solution: the single-step clause fires once, and the
multi-step clause dies at `3`. -/
theorem reduceoCount_r23_2_3 (n : Nat) :
    reduceoCount r23 (n + 1) (Term.atom 2) (Term.atom 3) = 1 := by
  have hstep : stepList r23 (Term.atom 2) = [Term.atom 3] := rfl
  have hmc : matchCount r23 (Term.atom 2) (Term.atom 3) = 1 := rfl
  simp [reduceoCount, hstep, hmc, reduceoCount_r23_from3]

/-! ### Claims -/

/-- Claim C1, counterexample.  The claim states that `graph_applyo` never
succeeds with the output structurally identical to the input unless the
relation itself supplies a reflexive pair somewhere along the rewrite
path.  With the cycle relation `{(2, 3), (3, 2)}` the goal
`graph_applyo(R, 2, 2)` succeeds (rewrite the root twice: 2 to 3, then 3
back to 2), yet the relation contains no reflexive pair at all, so in
particular none along that path. -/
theorem C1_counterexample :
    graph_applyo (pairRel rcyc) (Term.atom 2) (Term.atom 2) ∧
      ∀ t : Term, ¬ pairRel rcyc t t := by
  constructor
  · exact @graph_applyo.here_more (pairRel rcyc) (Term.atom 2) (Term.atom 3)
      (Term.atom 2) (by decide) (.here_done (by decide))
  · intro t ht
    simp only [pairRel, rcyc, List.mem_cons, List.mem_singleton,
      List.not_mem_nil, Prod.mk.injEq, or_false] at ht
    rcases ht with ⟨h1, h2⟩ | ⟨h1, h2⟩ <;>
      (rw [h1] at h2; exact absurd h2 (by decide))

/-- Claim C1, amended.  For every elementary relation `R` and ground terms
`x`, `y`, the goal `graph_applyo(R, x, y)` succeeds iff `y` is obtainable
from `x` by one or more applications of `R`, each at the root of the term
or arbitrarily deep inside its substructure, in any interleaving; in
particular it succeeds with `y` structurally identical to `x` only when
those applications of `R` themselves close a cycle at `x` — a reflexive
pair in `R` is one such cycle, but a longer cycle (such as the
counterexample's `{(2, 3), (3, 2)}`) also suffices; the combinator itself
adds no implicit identity. -/
theorem C1_amended (R : Term → Term → Prop) (x y : Term) :
    graph_applyo R x y ↔ Relation.TransGen (AppAt R false) x y :=
  graph_applyo_iff_transGen

/-- Claim C2: `reduceo(R, x, y)` succeeds iff there is a finite non-empty
chain `x = t0, t1, ..., tk = y` with `k ≥ 1` and `R(t_i, t_{i+1})` at
every step; the closure is transitive, and `reduceo(R, x, x)` succeeds
only when `R` itself provides such a chain back to `x` (an instance of
the chain characterisation at `y = x`). -/
theorem C2_reduceo_iff_chain (R : Term → Term → Prop) :
    (∀ x y, reduceo R x y ↔ ∃ ms, isChain R x ms y) ∧
      (∀ x y z, reduceo R x y → reduceo R y z → reduceo R x z) :=
  ⟨fun _ _ => reduceo_iff_chain, fun _ _ _ => reduceo_trans⟩

/-- Witness for claim C2 at the concrete cycle relation: the single-step
success of `reduceo({(2,3),(3,2)}, 2, 3)` yields an explicit chain, and
transitivity glues `2 to 3` and `3 to 2` into `reduceo(R, 2, 2)`. -/
theorem C2_witness :
    (∃ ms, isChain (pairRel rcyc) (Term.atom 2) ms (Term.atom 3)) ∧
      reduceo (pairRel rcyc) (Term.atom 2) (Term.atom 2) :=
  ⟨((C2_reduceo_iff_chain (pairRel rcyc)).1 (Term.atom 2) (Term.atom 3)).mp
      (.single (by decide)),
    (C2_reduceo_iff_chain (pairRel rcyc)).2 (Term.atom 2) (Term.atom 3) (Term.atom 2)
      (.single (by decide)) (.single (by decide))⟩

/-- Claim C3, counterexample.  The claim states that with the default flag
`lapply_anyo(R, a, b)` succeeds only when a *single* position is
relation-covered and all other positions are identical.  With
`R = {(2, 3)}`, `a = [2, 2]`, `b = [3, 3]` the goal succeeds — the
rewrite clause may fire at several positions in one pass — although no
single index covers both differences. -/
theorem C3_counterexample :
    lapply_anyo (pairRel r23) (.seq 0 [Term.atom 2, Term.atom 2])
        (.seq 0 [Term.atom 3, Term.atom 3]) false ∧
      ¬ singleApplySpec (pairRel r23) [Term.atom 2, Term.atom 2]
          [Term.atom 3, Term.atom 3] :=
  ⟨.rewrite (by decide) (.rewrite (by decide) (.base 0)), by decide⟩

/-- Claim C3, amended.  For every relation `R` and concrete sequences of a
common sentinel kind, the goal `lapply_anyo(R, a, b)` with the default
flag succeeds iff the sequences have equal length and there is a
*non-empty set* of positions at which `R` holds between corresponding
elements with every position outside the set identical on both sides
(equivalently: every position is relation-covered or identical, and at
least one is relation-covered).  The original claim's single-position
pairings are exactly the instances with a singleton set. -/
theorem C3_amended (R : Term → Term → Prop) (k k' : Nat) (as bs : List Term) :
    lapply_anyo R (.seq k as) (.seq k' bs) false ↔
      k = k' ∧ multiApplySpec R as bs := by
  rw [lapply_anyo_iff]
  unfold multiApplySpec
  constructor
  · rintro ⟨rfl, hlen, hall, hex⟩
    exact ⟨rfl, hlen, hall, hex rfl⟩
  · rintro ⟨rfl, hlen, hall, hex⟩
    exact ⟨rfl, hlen, hall, fun _ => hex⟩

/-- Claim C4: when both sequence arguments are concrete and their sentinel
kinds differ, `lapply_anyo` returns the always-failing goal before any
unification is attempted, and this is the only condition under which it
does so (every other failure is an ordinary empty result stream of the
`condeseq` goal); the short-circuit is sound, since no derivation relates
sequences of differing kinds. -/
theorem C4_sentinel_shortcircuit (l_in l_out : Term) :
    (lapply_anyo_head l_in l_out = .failGoal ↔
      ∃ k k', kindOf l_in = some k ∧ kindOf l_out = some k' ∧ k ≠ k') ∧
      (lapply_anyo_head l_in l_out = .failGoal →
        ∀ (R : Term → Term → Prop) (f : Bool), ¬ lapply_anyo R l_in l_out f) := by
  constructor
  · cases l_in with
    | atom n => cases l_out <;> simp [lapply_anyo_head, kindOf]
    | seq k as =>
        cases l_out with
        | atom m => simp [lapply_anyo_head, kindOf]
        | seq k' bs =>
            by_cases h : k' = k
            · subst h
              simp [lapply_anyo_head, kindOf]
            · constructor
              · intro _
                exact ⟨k, k', rfl, rfl, fun hk => h hk.symm⟩
              · intro _
                simp [lapply_anyo_head, kindOf, h]
  · intro hfail R f h
    obtain ⟨k, as, bs, rfl, rfl⟩ := lapply_anyo_kinds_eq h
    simp [lapply_anyo_head, kindOf] at hfail

/-- Witness for claim C4 at the concrete pair of sentinels of kinds 0 and
1: the head is the failing goal, and no derivation exists. -/
theorem C4_witness :
    lapply_anyo_head (.seq 0 []) (.seq 1 []) = .failGoal ∧
      ¬ lapply_anyo (pairRel r23) (.seq 0 []) (.seq 1 []) false := by
  have hfail : lapply_anyo_head (Term.seq 0 []) (Term.seq 1 []) = .failGoal :=
    (C4_sentinel_shortcircuit (.seq 0 []) (.seq 1 [])).1.mpr
      ⟨0, 1, rfl, rfl, by decide⟩
  exact ⟨hfail, (C4_sentinel_shortcircuit (.seq 0 []) (.seq 1 [])).2 hfail _ false⟩

/-- Claim C5: with the default not-yet-applied flag, `lapply_anyo` never
succeeds on two empty sequences (the base clause demands the flag be
already satisfied), and never succeeds on sequences of differing sentinel
kinds, whatever their elements. -/
theorem C5_empty_and_mismatch (R : Term → Term → Prop) :
    (∀ k, ¬ lapply_anyo R (.seq k []) (.seq k []) false) ∧
      (∀ (k k' : Nat) (as bs : List Term) (f : Bool), k ≠ k' →
        ¬ lapply_anyo R (.seq k as) (.seq k' bs) f) := by
  constructor
  · intro k h
    obtain ⟨-, -, -, hex⟩ := lapply_anyo_forward h
    obtain ⟨p, hp, -⟩ := hex rfl
    simp at hp
  · intro k k' as bs f hkk h
    obtain ⟨hk, -⟩ := lapply_anyo_forward h
    exact hkk hk

/-- Witness for claim C5: concrete failures on the empty kind-0 sequences
and on a kind-0 versus kind-1 pair. -/
theorem C5_witness :
    ¬ lapply_anyo (pairRel r23) (.seq 0 []) (.seq 0 []) false ∧
      ¬ lapply_anyo (pairRel r23) (.seq 0 [Term.atom 2]) (.seq 1 [Term.atom 3]) false :=
  ⟨(C5_empty_and_mismatch (pairRel r23)).1 0,
    (C5_empty_and_mismatch (pairRel r23)).2 0 1 _ _ false (by decide)⟩

/-- Claim C6: with `R = {(2, 3)}`, `reduceo(R, 2, 3)` succeeds and its
search yields exactly one solution at every sufficient fuel,
`reduceo(R, 2, 2)` fails, and `reduceo(R, 3, y)` fails for every term `y`
because `3` has no outgoing step. -/
theorem C6_scenario1 :
    reduceo (pairRel r23) (Term.atom 2) (Term.atom 3) ∧
      ¬ reduceo (pairRel r23) (Term.atom 2) (Term.atom 2) ∧
      (∀ y, ¬ reduceo (pairRel r23) (Term.atom 3) y) ∧
      ∀ n, reduceoCount r23 (n + 1) (Term.atom 2) (Term.atom 3) = 1 :=
  ⟨.single (by decide), reduceo_r23_not_2_2, reduceo_r23_from3, reduceoCount_r23_2_3⟩

/-- The operator compound `f(a, b)` of the spec's concrete scenario 3: an
operator atom followed by the arguments, of (tuple-like) sentinel
kind 1. -/
def fApp (a b : Term) : Term := .seq 1 [.atom 10, a, b]

/-- The operator compound `g(a)` of the spec's concrete scenario 3. -/
def gApp (a : Term) : Term := .seq 1 [.atom 11, a]

/-- Claim C7: with `R = {(2, 3)}` and input `f(2, g(2))`, the goal
`graph_applyo(R, f(2, g(2)), out)` admits the solutions `f(3, g(2))`,
`f(2, g(3))` and `f(3, g(3))`, never yields `f(2, g(2))` itself, and
extending `R` with the pair `(2, 2)` makes `f(2, g(2))` a producible
output. -/
theorem C7_scenario3 :
    graph_applyo (pairRel r23) (fApp (.atom 2) (gApp (.atom 2)))
        (fApp (.atom 3) (gApp (.atom 2))) ∧
      graph_applyo (pairRel r23) (fApp (.atom 2) (gApp (.atom 2)))
        (fApp (.atom 2) (gApp (.atom 3))) ∧
      graph_applyo (pairRel r23) (fApp (.atom 2) (gApp (.atom 2)))
        (fApp (.atom 3) (gApp (.atom 3))) ∧
      ¬ graph_applyo (pairRel r23) (fApp (.atom 2) (gApp (.atom 2)))
        (fApp (.atom 2) (gApp (.atom 2))) ∧
      graph_applyo (pairRel r23refl) (fApp (.atom 2) (gApp (.atom 2)))
        (fApp (.atom 2) (gApp (.atom 2))) := by
  have ga23 : graph_applyo (pairRel r23) (Term.atom 2) (Term.atom 3) :=
    .here_done (by decide)
  have gag : graph_applyo (pairRel r23) (gApp (Term.atom 2)) (gApp (Term.atom 3)) :=
    .sub_done (.keep (.rewrite ga23 (lapply_anyo_refl_true _ 1 [])))
  refine ⟨?_, ?_, ?_, ?_, ?_⟩
  · exact .sub_done (.keep (.rewrite ga23
      (lapply_anyo_refl_true _ 1 [gApp (.atom 2)])))
  · exact .sub_done (.keep (.keep (.rewrite gag (lapply_anyo_refl_true _ 1 []))))
  · exact .sub_done (.keep (.rewrite ga23 (.rewrite gag (.base 1))))
  · exact graph_applyo_r23_irrefl (fApp (.atom 2) (gApp (.atom 2)))
  · have ga22 : graph_applyo (pairRel r23refl) (Term.atom 2) (Term.atom 2) :=
      .here_done (by decide)
    exact .sub_done (.keep (.rewrite ga22
      (lapply_anyo_refl_true _ 1 [gApp (.atom 2)])))

/-- Spec-side: `t` is reachable from `x` under the elementary relation:
`x` itself or the target of a non-empty chain. -/
def reachesFrom (R : Term → Term → Prop) (x t : Term) : Prop :=
  t = x ∨ reduceo R x t

/-- Claim C8: a `reduceo` success survives enlarging the supplied relation
with the reflexive pairs on all terms reachable from the input — an
instance of monotonicity of `reduceo` in the relation. -/
theorem C8_reflexive_extension (R : Term → Term → Prop) (x y : Term)
    (h : reduceo R x y) :
    reduceo (fun a b => R a b ∨ (a = b ∧ reachesFrom R x a)) x y :=
  reduceo_mono (fun _ _ hab => Or.inl hab) h

/-- Witness for claim C8 at `R = {(2, 3)}` and the single-step success
from `2` to `3`. -/
theorem C8_witness :
    reduceo
      (fun a b => pairRel r23 a b ∨ (a = b ∧ reachesFrom (pairRel r23) (Term.atom 2) a))
      (Term.atom 2) (Term.atom 3) :=
  C8_reflexive_extension (pairRel r23) (Term.atom 2) (Term.atom 3) (.single (by decide))

/-- Claim C9: the `reduceo` search, modelled with explicit depth fuel,
terminates normally whenever the target is reachable — fuel the length of
the witnessing chain already finds it — and is sound; and when every
chain out of the input is bounded (no infinite outgoing chains) the
exhaustive solution count stabilises at finite fuel, so only exhaustion
of a stream with unbounded chains can run forever.  There is no failure
mode other than an empty or unexhausted stream. -/
theorem C9_search_termination (R : List (Term × Term)) (x y : Term) :
    (∀ ms : List Term, isChain (pairRel R) x ms y →
        reduceoSolvable R (ms.length + 1) x y = true) ∧
      (∀ n, reduceoSolvable R n x y = true → reduceo (pairRel R) x y) ∧
      (∀ N, depthBounded R N x → ∀ n, N + 1 ≤ n →
        reduceoCount R n x y = reduceoCount R (N + 1) x y) :=
  ⟨fun _ h => reduceoSolvable_of_chain h, fun _ h => reduceoSolvable_sound h,
    fun _ hdb n hn => reduceoCount_stab hdb y n hn⟩

/-- Witness for claim C9 at `R = {(2, 3)}`: the one-step chain from `2`
to `3` is found at fuel 1, and since every chain out of `2` has length at
most 1 the exhaustive count at fuel 3 equals the count at fuel 2. -/
theorem C9_witness :
    reduceoSolvable r23 1 (Term.atom 2) (Term.atom 3) = true ∧
      reduceoCount r23 3 (Term.atom 2) (Term.atom 3)
        = reduceoCount r23 2 (Term.atom 2) (Term.atom 3) := by
  have hchain : isChain (pairRel r23) (Term.atom 2) [] (Term.atom 3) := by
    show pairRel r23 (Term.atom 2) (Term.atom 3)
    decide
  have hdb : depthBounded r23 1 (Term.atom 2) := by
    intro m hm
    have hm3 : m = Term.atom 3 := by
      have hs : stepList r23 (Term.atom 2) = [Term.atom 3] := rfl
      rw [hs] at hm
      simpa using hm
    subst hm3
    show stepList r23 (Term.atom 3) = []
    rfl
  refine ⟨(C9_search_termination r23 (Term.atom 2) (Term.atom 3)).1 [] hchain, ?_⟩
  have hstab := (C9_search_termination r23 (Term.atom 2) (Term.atom 3)).2.2 1 hdb 3
    (by omega)
  simpa using hstab

/-- Claim C10 (implicit behaviour): the at-least-one-rewrite requirement
lives only in the flag check of the base clause, so passing the flag
already satisfied (`i_any=True`) accepts the identity pairing of any
concrete sequence with itself — including the empty sentinel — with zero
rewritten positions. -/
theorem C10_flag_true_identity (R : Term → Term → Prop) (k : Nat) (xs : List Term) :
    lapply_anyo R (.seq k xs) (.seq k xs) true :=
  lapply_anyo_refl_true R k xs

end SymbolicPymc
